import Mathlib

/-!
Verification of the diagram document model, import/export codec, catalog
loader and collapse-state tracker of the etl-pipeline-app repository.

The embedding follows `src/unnamed/part_001` (the current `App.jsx`),
which is the authoritative version; `src/App.jsx` is an earlier variant
whose logic agrees on every modelled operation unless noted otherwise.

Runtime values of the application are JavaScript values: JSON data plus
the three mutation callbacks that the app attaches to each node's `data`
object.  We model them with the inductive type `RVal`.  A JSON value (a
possible result of `JSON.parse`) is an `RVal` that contains no `rfun`;
`JSON.stringify` is modelled by `stringifyR`, which drops function-valued
object fields and turns function array elements into `null`, exactly as
the JavaScript serializer does.  A missing object field models the
JavaScript value `undefined`.
-/

namespace EtlApp

/-- The three mutation callbacks that the app re-binds on every node:
`onDescriptionChange`, `onDelete` and `onLabelChange` in the source. -/
inductive Callback where
  | cbDescription
  | cbDelete
  | cbLabel

/-- JavaScript runtime values as used by the app: JSON data plus closures.
`rnum` uses `Int` (the app only ever parses and compares integral ids;
float precision is irrelevant to the modelled operations). -/
inductive RVal where
  | rnull
  | rbool (b : Bool)
  | rnum (n : Int)
  | rstr (s : String)
  | rarr (elems : List RVal)
  | robj (fields : List (String × RVal))
  | rfun (c : Callback)

/-- First-match association lookup, modelling JavaScript property lookup on
an object represented as an insertion-ordered field list (real JS objects
never hold a duplicate key, so first match equals the unique match). -/
def lookupA {α : Type} : List (String × α) → String → Option α
  | [], _ => none
  | (k', v) :: t, k => if k' = k then some v else lookupA t k

/-- Property assignment in an object literal: replace the value in place
if the key is present, otherwise append the key at the end.  This is the
insertion-order semantics of `{...o, k: v}` in JavaScript. -/
def setF {α : Type} : List (String × α) → String → α → List (String × α)
  | [], k, v => [(k, v)]
  | (k', w) :: t, k, v => if k' = k then (k, v) :: t else (k', w) :: setF t k v

/-- Ensure-then-modify on an association list: apply `f` to the value at
`k` (using default `d` and appending at the end when `k` is absent).
Models the `if (!m[k]) m[k] = d; f(m[k])` idiom of the catalog loader. -/
def updateF {α : Type} : List (String × α) → String → (α → α) → α → List (String × α)
  | [], k, f, d => [(k, f d)]
  | (k', w) :: t, k, f, d => if k' = k then (k', f w) :: t else (k', w) :: updateF t k f d

/-- JavaScript member access `v.k`: a field lookup on objects, `undefined`
(modelled as `none`) on every non-object.  (Array index properties are
never accessed by name in the modelled code.) -/
def getFieldR : RVal → String → Option RVal
  | .robj fs, k => lookupA fs k
  | _, _ => none

/-- Object spread `{...v}`: the fields of an object, the empty field list
for `null`/`undefined`/numbers/booleans.  (The index properties produced
by spreading an array or a string are not modelled; the app only spreads
node objects and their `data` objects.) -/
def spreadR : RVal → List (String × RVal)
  | .robj fs => fs
  | _ => []

/-- JavaScript truthiness of a runtime value. -/
def jsTruthy : RVal → Bool
  | .rnull => false
  | .rbool b => b
  | .rnum n => if n = 0 then false else true
  | .rstr s => if s = "" then false else true
  | .rarr _ => true
  | .robj _ => true
  | .rfun _ => true

/-- Evaluation of `x || false` as used for `isCustom` normalization in the source:
the value itself when truthy, the boolean `false` otherwise (also when
the field is absent, i.e. `undefined`). -/
def jsOrFalse (o : Option RVal) : RVal :=
  match o with
  | some v => if jsTruthy v then v else .rbool false
  | none => .rbool false

mutual

/-- JavaScript `String(v)` coercion, as applied by `RegExp.exec` to the
node id.  Functions stringify to source text that can never match the
generated-id pattern; we use the placeholder `"function"`. -/
def jsToString : RVal → String
  | .rnull => "null"
  | .rbool b => if b then "true" else "false"
  | .rnum n => toString n
  | .rstr s => s
  | .rarr xs => String.intercalate "," (jsToStringElems xs)
  | .robj _ => "[object Object]"
  | .rfun _ => "function"

/-- Array elements under `Array.prototype.toString`: `null` becomes the
empty string, everything else coerces recursively. -/
def jsToStringElems : List RVal → List String
  | [] => []
  | .rnull :: t => "" :: jsToStringElems t
  | x :: t => jsToString x :: jsToStringElems t

end

mutual

/-- Serialization `JSON.stringify` on a runtime value, producing the parsed form of the
serialized text: `none` for a bare function (which stringifies to
`undefined`), otherwise the value with function-valued object fields
dropped and function array elements replaced by `null`. -/
def stringifyR : RVal → Option RVal
  | .rfun _ => none
  | .rarr xs => some (.rarr (stringifyArr xs))
  | .robj fs => some (.robj (stringifyFields fs))
  | v => some v

/-- Serialization of array elements: functions become `null`. -/
def stringifyArr : List RVal → List RVal
  | [] => []
  | x :: t => (stringifyR x).getD .rnull :: stringifyArr t

/-- Serialization of object fields: function-valued fields are dropped. -/
def stringifyFields : List (String × RVal) → List (String × RVal)
  | [] => []
  | (k, v) :: t =>
    match stringifyR v with
    | some w => (k, w) :: stringifyFields t
    | none => stringifyFields t

end

/-! ## Diagram document model (part_001 lines 55-87, 182-222) -/

/-- A document of the Diagram Document Model: an ordered sequence of node
values and of edge values (`nodes`/`edges` state in `PipelineBuilder`). -/
structure Diagram where
  nodes : List RVal
  edges : List RVal

/-- Strict comparison `n.id === nodeId` for a string `nodeId`: it holds exactly
when the `id` field is a string equal to `nodeId`. -/
def idIs (n : RVal) (nodeId : String) : Bool :=
  match getFieldR n "id" with
  | some (.rstr s) => s = nodeId
  | _ => false

/-- Strict comparison `e.k === s` for an edge field `k` (`"source"` or
`"target"`). -/
def fieldIsStr (e : RVal) (k : String) (s : String) : Bool :=
  match getFieldR e k with
  | some (.rstr t) => t = s
  | _ => false

/-- Deletion handler `handleDeleteNode` (part_001 lines 74-79): filter the node out of
`nodes` and filter out of `edges` every edge whose `source` or `target`
strictly equals the deleted id. -/
def handleDeleteNode (nodeId : String) (d : Diagram) : Diagram :=
  { nodes := d.nodes.filter (fun n => !(idIs n nodeId)),
    edges := d.edges.filter (fun e =>
      !(fieldIsStr e "source" nodeId) && !(fieldIsStr e "target" nodeId)) }

/-- The `{...n, data: {...n.data, k: v}}` update applied by both
`handleLabelChange` and `onDescriptionChange`. -/
def updateDataField (n : RVal) (k : String) (v : RVal) : RVal :=
  .robj (setF (spreadR n) "data"
    (.robj (setF (spreadR ((getFieldR n "data").getD .rnull)) k v)))

/-- Label updater `handleLabelChange` (part_001 lines 81-87): map over the nodes and
rewrite `data.label` of every node whose id matches.  Note that this
state updater itself performs no `isCustom` check. -/
def handleLabelChange (nodeId label : String) (nodes : List RVal) : List RVal :=
  nodes.map (fun n => if idIs n nodeId then updateDataField n "label" (.rstr label) else n)

/-- Reading `n.data.k` the way the node components are rendered:
`undefined` data reads as no field. -/
def dataFieldOf (n : RVal) (k : String) : Option RVal :=
  getFieldR ((getFieldR n "data").getD .rnull) k

/-- The user-level relabel operation.  `SideNode` (part_001 lines 26-34)
renders the editable label input, whose change event is the only caller
of `handleLabelChange`, only when `data.isCustom` is truthy; a non-custom
node renders a static label div.  So a relabel event for a node id can
occur exactly when that node's `data.isCustom` is truthy. -/
def relabelNode (nodeId label : String) (d : Diagram) : Diagram :=
  match d.nodes.find? (fun n => idIs n nodeId) with
  | none => d
  | some n =>
    if jsTruthy ((dataFieldOf n "isCustom").getD .rnull) then
      { nodes := handleLabelChange nodeId label d.nodes, edges := d.edges }
    else d

/-- Description updater `onDescriptionChange` (part_001 lines 66-72): map over the nodes and
rewrite `data.description` of every node whose id matches; the edge list
is not touched. -/
def onDescriptionChange (nodeId desc : String) (d : Diagram) : Diagram :=
  { nodes := d.nodes.map (fun n =>
      if idIs n nodeId then updateDataField n "description" (.rstr desc) else n),
    edges := d.edges }

/-- The edge object appended by `onConnect` (part_001 lines 184-187):
the connection endpoints plus the presentation flags `animated` and
`markerEnd`, with the library-assigned edge id. -/
def connEdge (sourceId targetId : String) : RVal :=
  .robj [("id", .rstr ("reactflow__edge-" ++ sourceId ++ "-" ++ targetId)),
         ("source", .rstr sourceId), ("target", .rstr targetId),
         ("animated", .rbool true),
         ("markerEnd", .robj [("type", .rstr "arrowclosed")])]

/-- Modelled from the spec: the Connect operation.  `onConnect` (part_001
lines 184-187) delegates edge construction to `addEdge` of the external
`reactflow` library, and the canvas only emits a connection event between
handles of nodes present in the document; neither the library nor the
canvas is code under `src/`.  Spec contract: "appends a new Edge only if
both endpoints exist; assigns a unique edge id". -/
def connect (sourceId targetId : String) (d : Diagram) : Diagram :=
  if (d.nodes.any (fun n => idIs n sourceId)) && (d.nodes.any (fun n => idIs n targetId)) then
    { nodes := d.nodes, edges := d.edges ++ [connEdge sourceId targetId] }
  else d

/-! ## Identifier counter and drag-and-drop (part_001 lines 18-19, 193-222) -/

/-- Id generator `getId` (part_001 lines 18-19): produce the next generated node id
and the advanced counter. -/
def getId (counter : Nat) : String × Nat :=
  ("node_" ++ toString counter, counter + 1)

/-- Application state relevant to the codec: the node list, the edge
state (an arbitrary runtime value, as `setEdges` receives whatever
the imported file held) and the global identifier counter. -/
structure AppState where
  nodes : List RVal
  edges : RVal
  counter : Nat

/-- The `label` field of a freshly dropped node: present with the payload
value when the payload has one; a missing field models the `undefined`
that `JSON.stringify` would drop. -/
def labelField (payload : RVal) : List (String × RVal) :=
  match getFieldR payload "label" with
  | some v => [("label", v)]
  | none => []

/-- Default description `descriptions[payload.label] || ''` (part_001
line 214): the lookup
key is the string coercion of the payload label (`"undefined"` when the
label is absent), and a missing entry yields the empty string. -/
def descLookup (descs : List (String × String)) (payload : RVal) : String :=
  let key := match getFieldR payload "label" with
    | some v => jsToString v
    | none => "undefined"
  (lookupA descs key).getD ""

/-- The node object built by `onDrop` (part_001 lines 205-221). -/
def dropNode (nid : String) (payload : RVal) (pos : RVal)
    (descs : List (String × String)) : RVal :=
  .robj [("id", .rstr nid), ("type", .rstr "sideNode"), ("position", pos),
    ("data", .robj ([("id", .rstr nid)] ++ labelField payload ++
      [("description", .rstr (descLookup descs payload)),
       ("onDescriptionChange", .rfun .cbDescription),
       ("onDelete", .rfun .cbDelete),
       ("onLabelChange", .rfun .cbLabel),
       ("isCustom", jsOrFalse (getFieldR payload "isCustom"))]))]

/-- Drop handler `onDrop` (part_001 lines 193-222): `payload = none` models a drag
payload on which `JSON.parse` throws, making the handler return before
`getId()` is reached; otherwise a new node is appended and the counter
advances. -/
def onDrop (descs : List (String × String)) (payload : Option RVal)
    (pos : RVal) (st : AppState) : AppState :=
  match payload with
  | none => st
  | some p =>
    let nid := (getId st.counter).1
    { nodes := st.nodes ++ [dropNode nid p pos descs],
      edges := st.edges,
      counter := (getId st.counter).2 }

/-! ## Import/Export codec (part_001 lines 224-267) -/

/-- Decimal value of a non-empty all-digit character run (`\d` is exactly
codepoints 48-57), accumulator form; `none` on a non-digit. -/
def digitsAux : List Char → Nat → Option Nat
  | [], acc => some acc
  | c :: t, acc =>
    if 48 ≤ c.toNat && c.toNat ≤ 57 then digitsAux t (acc * 10 + (c.toNat - 48))
    else none

/-- Semantics of `Number` applied to a `\d+` capture: the decimal value of a non-empty
digit run, `none` otherwise. -/
def digitsToNat : List Char → Option Nat
  | [] => none
  | c :: t => digitsAux (c :: t) 0

/-- The generated-id pattern `^node_(\d+)$`: the exact integer suffix as
written, when the string is `node_` followed by one or more decimal
digits, else `none`.  (This is the suffix the spec speaks about; the
program then converts it through IEEE-754 float64, see `jsRound`.) -/
def suffixOf (s : String) : Option Nat :=
  if s.data.take 5 = "node_".data then digitsToNat (s.data.drop 5) else none

/-- Smallest `s` with `n / 2 ^ s < 2 ^ 53` (the binade-dependent spacing
exponent of the float64 grid at magnitude `n`), by fuel recursion so that
it evaluates inside the kernel; fuel 1100 covers every `n` below the
float64 overflow threshold `2 ^ 1024`.  `9007199254740992` is `2 ^ 53`. -/
def ulpExp : Nat → Nat → Nat
  | 0, _ => 0
  | f + 1, n => if n < 9007199254740992 then 0 else ulpExp f (n / 2) + 1

/-- Rounding of a nonnegative integer to the nearest IEEE-754 float64
value (round-to-nearest, ties to even mantissa), computed exactly:
integers below `2 ^ 53` are exact; above, the value is rounded to the
nearest multiple of the grid spacing `2 ^ ulpExp`.  This is what
`Number` applied to a digit string and float64 `+ 1` perform in the
source.  Values at or above `2 ^ 1024` overflow to `Infinity` in JS and
are not modelled; no theorem below depends on that range. -/
def jsRound (n : Nat) : Nat :=
  let s := ulpExp 1100 n
  if s = 0 then n
  else
    let u := 2 ^ s
    let q := n / u
    let r := n % u
    if 2 * r < u then q * u
    else if u < 2 * r then (q + 1) * u
    else if q % 2 = 0 then q * u else (q + 1) * u

/-- The string the regex is applied to: `String(n.id)`, which is
`"undefined"` when the node has no `id` field. -/
def idStrOf (n : RVal) : String :=
  match getFieldR n "id" with
  | some v => jsToString v
  | none => "undefined"

/-- The `maxIndex` fold of the id-reconciliation scan, starting from the
accumulator `a` (the source starts at `-1`).  The index compared and
stored is `Number(m[1])`, i.e. the float64 value `jsRound` of the exact
suffix; comparison and `max` of integer-valued doubles are exact. -/
def foldMaxAux : List RVal → Int → Int
  | [], a => a
  | n :: t, a =>
    foldMaxAux t (match suffixOf (idStrOf n) with
      | some k => max a ((jsRound k : Int))
      | none => a)

/-- The per-node remap of the import (part_001 lines 241-257):
`{...n, data: {...n.data, onDescriptionChange, onDelete, onLabelChange,
isCustom: n.data.isCustom || false}}`.  Reading `n.data.isCustom` throws
(`.error`) exactly when `n.data` is `undefined` (a missing field, also on
every non-object `n`) or `null`. -/
def remapNode (n : RVal) : Except Unit RVal :=
  match getFieldR n "data" with
  | none => .error ()
  | some .rnull => .error ()
  | some dv =>
    .ok (.robj (setF (spreadR n) "data" (.robj
      (setF (setF (setF (setF (spreadR dv)
        "onDescriptionChange" (.rfun .cbDescription))
        "onDelete" (.rfun .cbDelete))
        "onLabelChange" (.rfun .cbLabel))
        "isCustom" (jsOrFalse (getFieldR dv "isCustom"))))))

/-- Semantics of `Array.prototype.map` with a throwing body: apply `remapNode` in
order and propagate the first exception. -/
def mapE : List RVal → Except Unit (List RVal)
  | [] => .ok []
  | n :: t =>
    match remapNode n with
    | .error e => .error e
    | .ok r =>
      match mapE t with
      | .error e => .error e
      | .ok rs => .ok (r :: rs)

/-- The body of the `reader.onload` try-block of `importJson` (part_001
lines 238-260) applied to a successful `JSON.parse` result `j`.
Destructuring `{nodes = [], edges = []}` throws only on `null` (`JSON.parse`
never yields `undefined`); a missing key defaults to `[]`, and any other
value — including a non-array — is passed through.  Mapping over a
non-array `nodes` value throws.  On success it returns the remapped node
list, the raw `edges` value handed to `setEdges`, and the new counter:
the float64 increment `maxIndex + 1` (the exact integer sum rounded to a
representable double by `jsRound`). -/
def importBody (j : RVal) : Except Unit (List RVal × RVal × Nat) :=
  match (getFieldR j "nodes").getD (.rarr []) with
  | .rarr xs =>
    match mapE xs with
    | .error e => .error e
    | .ok remapped =>
      .ok (remapped, (getFieldR j "edges").getD (.rarr []),
           jsRound ((foldMaxAux xs (-1) + 1).toNat))
  | _ => .error ()

/-- The try-block applied to a parse result `j`: destructuring throws on
`null`, everything else proceeds with `importBody`. -/
def importJson (j : RVal) : Except Unit (List RVal × RVal × Nat) :=
  match j with
  | .rnull => .error ()
  | _ => importBody j

/-- The null check unfolded: on a non-null parse result the import runs
the body. -/
theorem importJson_eq_body (j : RVal) (h : j ≠ RVal.rnull) :
    importJson j = importBody j := by
  cases j
  case rnull => exact absurd rfl h
  all_goals rfl

/-- The counter produced by a successful import. -/
def importCounter (j : RVal) : Option Nat :=
  match importJson j with
  | .ok (_, _, c) => some c
  | .error _ => none

/-- The id strings of the imported nodes, as scanned by the
reconciliation loop. -/
def importedIds (j : RVal) : List String :=
  match (getFieldR j "nodes").getD (.rarr []) with
  | .rarr xs => xs.map idStrOf
  | _ => []

/-- The whole import handler: `none` models a file whose text fails
`JSON.parse`; the catch-branch shows the alert and leaves the state
untouched.  Returns the new state and whether the alert was shown. -/
def importFile (o : Option RVal) (st : AppState) : AppState × Bool :=
  match o with
  | none => (st, true)
  | some j =>
    match importJson j with
    | .ok (ns, es, c) => ({ nodes := ns, edges := es, counter := c }, false)
    | .error _ => (st, true)

/-- Export handler `exportJson` (part_001 lines 224-231): `JSON.stringify` applied to
the object `{nodes, edges}`.  The result is represented as the parsed
form of the serialized text. -/
def exportJson (st : AppState) : RVal :=
  .robj (stringifyFields [("nodes", .rarr st.nodes), ("edges", st.edges)])

/-! ## Catalog loader (part_001 lines 131-167) -/

/-- A raw record of `tools.json`: a category, a type, and per-platform
tool-name arrays (`arrs`, an absent platform meaning no array). -/
structure ToolRecord where
  category : String
  ttype : String
  arrs : List (String × List String)

/-- The fixed platform enumeration (part_001 line 135). -/
def platforms : List String := ["AWS", "Azure", "GCP", "Open Source", "Vendor"]

/-- Append a tool name unless already present — `includes` is a
case-sensitive exact match on strings. -/
def addTool (ts : List String) (t : String) : List String :=
  if ts.contains t then ts else ts ++ [t]

/-- platform → category → type → ordered tool-name list. -/
abbrev TypeMap := List (String × List String)
abbrev CatMap := List (String × TypeMap)
abbrev Taxonomy := List (String × CatMap)

/-- The body of the inner `platforms.forEach` (part_001 lines 139-150):
skip a platform whose array is empty or absent (`entry[p] || []` is
falsy-defaulted, and `!arr.length` skips empty arrays), otherwise ensure
the category and type containers exist and append the new tool names. -/
def stepFn (e : ToolRecord) (tx : Taxonomy) (p : String) : Taxonomy :=
  let arr := (lookupA e.arrs p).getD []
  if arr.isEmpty then tx
  else updateF tx p (fun cats =>
    updateF cats e.category (fun tys =>
      updateF tys e.ttype (fun ts => arr.foldl addTool ts) []) []) []

/-- Process one record (the body of `data.forEach`, part_001 lines
138-151). -/
def insertRecord (tax : Taxonomy) (e : ToolRecord) : Taxonomy :=
  platforms.foldl (stepFn e) tax

/-- The pre-seeded empty taxonomy (`platforms.forEach(p => nested[p] = {})`). -/
def initTaxonomy : Taxonomy := platforms.map (fun p => (p, []))

/-- The full catalog build over the record sequence. -/
def buildGrouped (data : List ToolRecord) : Taxonomy :=
  data.foldl insertRecord initTaxonomy

/-- Three-level taxonomy lookup. -/
def lookupTax (tax : Taxonomy) (p c t : String) : Option (List String) :=
  (lookupA tax p).bind fun cats => (lookupA cats c).bind fun tys => lookupA tys t

/-! ## Collapse-state tracker (part_001 lines 286-288) -/

/-- Collapse toggler `toggle`, i.e. `setCollapsed(c => ({...c, [key]: !c[key]}))`.  An absent
key reads as `undefined`, which is falsy, so `!c[key]` is `true` there. -/
def toggle (c : List (String × Bool)) (key : String) : List (String × Bool) :=
  setF c key (!((lookupA c key).getD false))

/-! ## Association-list lemmas -/

theorem lookupA_setF_self {α : Type} (fs : List (String × α)) (k : String) (v : α) :
    lookupA (setF fs k v) k = some v := by
  induction fs with
  | nil => simp [setF, lookupA]
  | cons p t ih =>
    obtain ⟨k', w⟩ := p
    by_cases h : k' = k
    · simp [setF, h, lookupA]
    · simp [setF, h, lookupA, ih]

theorem lookupA_setF_ne {α : Type} (fs : List (String × α)) (k k' : String) (v : α)
    (h : k' ≠ k) : lookupA (setF fs k v) k' = lookupA fs k' := by
  have h' : ¬ k = k' := fun hh => h hh.symm
  induction fs with
  | nil => simp [setF, lookupA, h']
  | cons p t ih =>
    obtain ⟨k₁, w⟩ := p
    by_cases h₁ : k₁ = k
    · subst h₁
      simp [setF, lookupA, h']
    · simp [setF, h₁, lookupA, ih]

theorem setF_self_of_lookupA {α : Type} (fs : List (String × α)) (k : String) (v : α)
    (h : lookupA fs k = some v) : setF fs k v = fs := by
  induction fs with
  | nil => simp [lookupA] at h
  | cons p t ih =>
    obtain ⟨k₁, w⟩ := p
    by_cases h₁ : k₁ = k
    · subst h₁
      simp [lookupA] at h
      simp [setF, h]
    · simp [lookupA, h₁] at h
      simp [setF, h₁, ih h]

theorem setF_of_absent {α : Type} (fs : List (String × α)) (k : String) (v : α)
    (h : lookupA fs k = none) : setF fs k v = fs ++ [(k, v)] := by
  induction fs with
  | nil => simp [setF]
  | cons p t ih =>
    obtain ⟨k₁, w⟩ := p
    by_cases h₁ : k₁ = k
    · simp [lookupA, h₁] at h
    · simp [lookupA, h₁] at h
      simp [setF, h₁, ih h]

theorem lookupA_append {α : Type} (l r : List (String × α)) (k : String) :
    lookupA (l ++ r) k =
      match lookupA l k with
      | some v => some v
      | none => lookupA r k := by
  induction l with
  | nil => simp [lookupA]
  | cons p t ih =>
    obtain ⟨k₁, w⟩ := p
    by_cases h₁ : k₁ = k
    · simp [lookupA, h₁]
    · simp [lookupA, h₁, ih]

theorem setF_append_left {α : Type} (l r : List (String × α)) (k : String) (v w : α)
    (h : lookupA l k = some w) : setF (l ++ r) k v = setF l k v ++ r := by
  induction l with
  | nil => simp [lookupA] at h
  | cons p t ih =>
    obtain ⟨k₁, u⟩ := p
    by_cases h₁ : k₁ = k
    · simp [setF, h₁]
    · simp [lookupA, h₁] at h
      simp [setF, h₁, ih h]

theorem lookupA_spreadR (n : RVal) (k : String) :
    lookupA (spreadR n) k = getFieldR n k := by
  cases n <;> simp [spreadR, getFieldR, lookupA]

/-! ## Serialization lemmas -/

mutual

/-- Serialization is a fixpoint on serialized values. -/
theorem stringifyR_fix : (v w : RVal) → stringifyR v = some w → stringifyR w = some w
  | .rnull, w, h => by
    simp [stringifyR] at h
    simp [← h, stringifyR]
  | .rbool b, w, h => by
    simp [stringifyR] at h
    simp [← h, stringifyR]
  | .rnum n, w, h => by
    simp [stringifyR] at h
    simp [← h, stringifyR]
  | .rstr s, w, h => by
    simp [stringifyR] at h
    simp [← h, stringifyR]
  | .rfun c, w, h => by
    simp [stringifyR] at h
  | .rarr xs, w, h => by
    simp [stringifyR] at h
    simp [← h, stringifyR, stringifyArr_fix xs]
  | .robj fs, w, h => by
    simp [stringifyR] at h
    simp [← h, stringifyR, stringifyFields_fix fs]

/-- Array serialization is idempotent. -/
theorem stringifyArr_fix : (l : List RVal) → stringifyArr (stringifyArr l) = stringifyArr l
  | [] => rfl
  | x :: t => by
    cases hx : stringifyR x with
    | none => simp [stringifyArr, hx, stringifyR, stringifyArr_fix t]
    | some w => simp [stringifyArr, hx, stringifyR_fix x w hx, stringifyArr_fix t]

/-- Field serialization is idempotent. -/
theorem stringifyFields_fix :
    (fs : List (String × RVal)) → stringifyFields (stringifyFields fs) = stringifyFields fs
  | [] => rfl
  | (k, v) :: t => by
    cases hv : stringifyR v with
    | none => simp [stringifyFields, hv, stringifyFields_fix t]
    | some w => simp [stringifyFields, hv, stringifyR_fix v w hv, stringifyFields_fix t]

end

theorem stringifyFields_length_le (fs : List (String × RVal)) :
    (stringifyFields fs).length ≤ fs.length := by
  induction fs with
  | nil => simp [stringifyFields]
  | cons p t ih =>
    obtain ⟨k, v⟩ := p
    cases hv : stringifyR v with
    | none => simp [stringifyFields, hv]; omega
    | some w => simp [stringifyFields, hv]; omega

theorem stringifyFields_cons_inv (k : String) (u : RVal) (t : List (String × RVal))
    (h : stringifyFields ((k, u) :: t) = (k, u) :: t) :
    stringifyR u = some u ∧ stringifyFields t = t := by
  cases hu : stringifyR u with
  | none =>
    exfalso
    rw [stringifyFields, hu] at h
    have := stringifyFields_length_le t
    have := congrArg List.length h
    simp at this
    omega
  | some w =>
    rw [stringifyFields, hu] at h
    simp only [List.cons.injEq, Prod.mk.injEq] at h
    obtain ⟨⟨-, hw⟩, ht⟩ := h
    subst hw
    exact ⟨rfl, ht⟩

theorem lookupA_stringifyFields (fs : List (String × RVal)) (k : String) (v w : RVal)
    (hl : lookupA fs k = some v) (hs : stringifyR v = some w) :
    lookupA (stringifyFields fs) k = some w := by
  induction fs with
  | nil => simp [lookupA] at hl
  | cons p t ih =>
    obtain ⟨k₁, u⟩ := p
    by_cases h₁ : k₁ = k
    · subst h₁
      simp [lookupA] at hl
      subst hl
      simp [stringifyFields, hs, lookupA]
    · simp [lookupA, h₁] at hl
      cases hu : stringifyR u with
      | none => simp [stringifyFields, hu, ih hl]
      | some w₁ => simp [stringifyFields, hu, lookupA, h₁, ih hl]

theorem lookupA_stringifyFields_none (fs : List (String × RVal)) (k : String)
    (h : ∀ p ∈ fs, p.1 = k → ∃ c, p.2 = RVal.rfun c) :
    lookupA (stringifyFields fs) k = none := by
  induction fs with
  | nil => simp [stringifyFields, lookupA]
  | cons p t ih =>
    obtain ⟨k₁, u⟩ := p
    have iht : lookupA (stringifyFields t) k = none :=
      ih (fun q hq hk => h q (List.mem_cons_of_mem _ hq) hk)
    by_cases h₁ : k₁ = k
    · obtain ⟨c, hc⟩ := h (k₁, u) (List.mem_cons_self _ _) h₁
      simp at hc
      subst hc
      simp [stringifyFields, stringifyR, iht]
    · cases hu : stringifyR u with
      | none => simp [stringifyFields, hu, iht]
      | some w => simp [stringifyFields, hu, lookupA, h₁, iht]

theorem stringifyFields_append (l r : List (String × RVal)) :
    stringifyFields (l ++ r) = stringifyFields l ++ stringifyFields r := by
  induction l with
  | nil => simp [stringifyFields]
  | cons p t ih =>
    obtain ⟨k, v⟩ := p
    cases hv : stringifyR v with
    | none => simp [stringifyFields, hv, ih]
    | some w => simp [stringifyFields, hv, ih]

/-- Replacing a field of a serialized object by a value with the same
serialization leaves the serialized object unchanged. -/
theorem stringifyFields_setF_pure (hs : List (String × RVal)) (k : String) (v w : RVal)
    (hpure : stringifyFields hs = hs) (hl : lookupA hs k = some w)
    (hv : stringifyR v = some w) : stringifyFields (setF hs k v) = hs := by
  induction hs with
  | nil => simp [lookupA] at hl
  | cons p t ih =>
    obtain ⟨k₁, u⟩ := p
    obtain ⟨hu, ht⟩ := stringifyFields_cons_inv k₁ u t hpure
    by_cases h₁ : k₁ = k
    · subst h₁
      simp [lookupA] at hl
      subst hl
      simp [setF, stringifyFields, hv, ht]
    · simp [lookupA, h₁] at hl
      simp [setF, h₁, stringifyFields, hu, ih ht hl]

theorem stringify_truthy (v w : RVal) (h : stringifyR v = some w) :
    jsTruthy w = jsTruthy v := by
  cases v <;> simp [stringifyR] at h <;> simp [← h, jsTruthy]

theorem stringify_isSome_of_notfun (v : RVal) (h : ∀ c, v ≠ RVal.rfun c) :
    ∃ w, stringifyR v = some w := by
  cases v <;> simp [stringifyR]
  exact h _ rfl

/-! ## Round-trip well-formedness

Every node the running app ever stores is an object whose `data` is an
object carrying a normalized `isCustom` value (the result of `x || false`:
a boolean or a truthy non-function, as produced by `onDrop` and by
the import remap) and whose three callback fields, when present, hold the
re-bound closures.  `wfNode` captures exactly that. -/

/-- The keys of the re-bound mutation callbacks. -/
def cbNames : List String := ["onDescriptionChange", "onDelete", "onLabelChange"]

/-- Whether a runtime value is a closure. -/
def isFunB : RVal → Bool
  | .rfun _ => true
  | _ => false

/-- Values fixed by `x || false`: booleans and truthy non-functions. -/
def normCustomB : RVal → Bool
  | .rbool _ => true
  | .rfun _ => false
  | v => jsTruthy v

/-- Well-formedness of a stored node (see section comment). -/
def wfNode (n : RVal) : Bool :=
  match n with
  | .robj fs =>
    match lookupA fs "data" with
    | some (.robj ds) =>
      (match lookupA ds "isCustom" with
       | some v => normCustomB v
       | none => false)
      && ds.all (fun p => !(cbNames.contains p.1) || isFunB p.2)
    | _ => false
  | _ => false

/-- Well-formedness of an app state: well-formed nodes and an array of
edges. -/
def wfState (st : AppState) : Bool :=
  st.nodes.all wfNode &&
    (match st.edges with
     | .rarr _ => true
     | _ => false)

theorem normCustom_jsOrFalse (v w : RVal) (hn : normCustomB v = true)
    (hs : stringifyR v = some w) : jsOrFalse (some w) = w := by
  cases v with
  | rbool b =>
    simp [stringifyR] at hs
    cases b <;> simp [← hs, jsOrFalse, jsTruthy]
  | rfun c => simp [normCustomB] at hn
  | rnull => simp [normCustomB, jsTruthy] at hn
  | rnum n =>
    simp [normCustomB, jsTruthy] at hn
    simp [stringifyR] at hs
    simp [← hs, jsOrFalse, jsTruthy, hn]
  | rstr s =>
    simp [normCustomB, jsTruthy] at hn
    simp [stringifyR] at hs
    simp [← hs, jsOrFalse, jsTruthy, hn]
  | rarr xs =>
    simp [stringifyR] at hs
    simp [← hs, jsOrFalse, jsTruthy]
  | robj fs =>
    simp [stringifyR] at hs
    simp [← hs, jsOrFalse, jsTruthy]

theorem all_cb_fun (ds : List (String × RVal))
    (h : ds.all (fun p => !(cbNames.contains p.1) || isFunB p.2) = true)
    (k : String) (hk : cbNames.contains k = true) :
    ∀ p ∈ ds, p.1 = k → ∃ c, p.2 = RVal.rfun c := by
  intro p hp hpk
  have := (List.all_eq_true.mp h) p hp
  rw [hpk, hk] at this
  simp at this
  cases hv : p.2 <;> simp [isFunB, hv] at this ⊢

/-- A well-formed node serializes, its serialization is accepted by
the import remap, and the remapped node re-serializes to the same value. -/
theorem remap_roundtrip (n : RVal) (h : wfNode n = true) :
    ∃ jn, stringifyR n = some jn ∧
      ∃ r, remapNode jn = Except.ok r ∧ stringifyR r = some jn := by
  cases n with
  | rnull => simp [wfNode] at h
  | rbool b => simp [wfNode] at h
  | rnum m => simp [wfNode] at h
  | rstr s => simp [wfNode] at h
  | rarr xs => simp [wfNode] at h
  | rfun c => simp [wfNode] at h
  | robj fs =>
    rw [wfNode] at h
    cases hd : lookupA fs "data" with
    | none => rw [hd] at h; simp at h
    | some dv =>
      rw [hd] at h
      cases dv with
      | rnull => simp at h
      | rbool b => simp at h
      | rnum m => simp at h
      | rstr s => simp at h
      | rarr xs => simp at h
      | rfun c => simp at h
      | robj ds =>
        simp only [Bool.and_eq_true] at h
        obtain ⟨hic, hcb⟩ := h
        cases hv : lookupA ds "isCustom" with
        | none => rw [hv] at hic; simp at hic
        | some v =>
          rw [hv] at hic
          have hvnf : ∀ c, v ≠ RVal.rfun c := by
            cases v <;> simp [normCustomB] at hic ⊢
          obtain ⟨w, hw⟩ := stringify_isSome_of_notfun v hvnf
          have hdataS : lookupA (stringifyFields fs) "data"
              = some (RVal.robj (stringifyFields ds)) :=
            lookupA_stringifyFields fs "data" _ _ hd (by simp [stringifyR])
          have hicS : lookupA (stringifyFields ds) "isCustom" = some w :=
            lookupA_stringifyFields ds "isCustom" v w hv hw
          have hcb1 : lookupA (stringifyFields ds) "onDescriptionChange" = none :=
            lookupA_stringifyFields_none _ _ (all_cb_fun ds hcb _ (by rfl))
          have hcb2 : lookupA (stringifyFields ds) "onDelete" = none :=
            lookupA_stringifyFields_none _ _ (all_cb_fun ds hcb _ (by rfl))
          have hcb3 : lookupA (stringifyFields ds) "onLabelChange" = none :=
            lookupA_stringifyFields_none _ _ (all_cb_fun ds hcb _ (by rfl))
          have e1 : setF (stringifyFields ds) "onDescriptionChange"
                (RVal.rfun .cbDescription)
              = stringifyFields ds ++ [("onDescriptionChange", RVal.rfun .cbDescription)] :=
            setF_of_absent _ _ _ hcb1
          have hcb2' : lookupA (stringifyFields ds
                ++ [("onDescriptionChange", RVal.rfun .cbDescription)]) "onDelete" = none := by
            rw [lookupA_append, hcb2]
            simp [lookupA]
          have e2 : setF (stringifyFields ds
                ++ [("onDescriptionChange", RVal.rfun .cbDescription)]) "onDelete"
                (RVal.rfun .cbDelete)
              = stringifyFields ds ++ [("onDescriptionChange", RVal.rfun .cbDescription),
                  ("onDelete", RVal.rfun .cbDelete)] := by
            rw [setF_of_absent _ _ _ hcb2', List.append_assoc]
            rfl
          have hcb3' : lookupA (stringifyFields ds
                ++ [("onDescriptionChange", RVal.rfun .cbDescription),
                    ("onDelete", RVal.rfun .cbDelete)]) "onLabelChange" = none := by
            rw [lookupA_append, hcb3]
            simp [lookupA]
          have e3 : setF (stringifyFields ds
                ++ [("onDescriptionChange", RVal.rfun .cbDescription),
                    ("onDelete", RVal.rfun .cbDelete)]) "onLabelChange"
                (RVal.rfun .cbLabel)
              = stringifyFields ds ++ [("onDescriptionChange", RVal.rfun .cbDescription),
                  ("onDelete", RVal.rfun .cbDelete), ("onLabelChange", RVal.rfun .cbLabel)] := by
            rw [setF_of_absent _ _ _ hcb3', List.append_assoc]
            rfl
          have e4 : setF (stringifyFields ds
                ++ [("onDescriptionChange", RVal.rfun .cbDescription),
                    ("onDelete", RVal.rfun .cbDelete), ("onLabelChange", RVal.rfun .cbLabel)])
                "isCustom" w
              = stringifyFields ds ++ [("onDescriptionChange", RVal.rfun .cbDescription),
                  ("onDelete", RVal.rfun .cbDelete), ("onLabelChange", RVal.rfun .cbLabel)] := by
            rw [setF_append_left _ _ _ _ w hicS, setF_self_of_lookupA _ _ _ hicS]
          refine ⟨RVal.robj (stringifyFields fs), by simp [stringifyR], ?_⟩
          refine ⟨RVal.robj (setF (stringifyFields fs) "data" (RVal.robj
            (stringifyFields ds ++ [("onDescriptionChange", RVal.rfun .cbDescription),
              ("onDelete", RVal.rfun .cbDelete), ("onLabelChange", RVal.rfun .cbLabel)]))),
            ?_, ?_⟩
          · rw [remapNode]
            simp only [getFieldR, hdataS]
            simp only [spreadR, lookupA_spreadR, getFieldR, hicS,
              normCustom_jsOrFalse v w hic hw, e1, e2, e3, e4]
          · have hnewS : stringifyR (RVal.robj
                (stringifyFields ds ++ [("onDescriptionChange", RVal.rfun .cbDescription),
                  ("onDelete", RVal.rfun .cbDelete), ("onLabelChange", RVal.rfun .cbLabel)]))
                = some (RVal.robj (stringifyFields ds)) := by
              simp only [stringifyR, stringifyFields_append, stringifyFields_fix ds]
              simp [stringifyFields, stringifyR]
            simp only [stringifyR]
            rw [stringifyFields_setF_pure _ _ _ _ (stringifyFields_fix fs) hdataS hnewS]

/-- List version of `remap_roundtrip`: the serialized node array is
accepted by the import map, and the remapped nodes re-serialize to the
same array. -/
theorem mapE_roundtrip (ns : List RVal) (h : ns.all wfNode = true) :
    ∃ rs, mapE (stringifyArr ns) = Except.ok rs ∧ stringifyArr rs = stringifyArr ns := by
  induction ns with
  | nil => exact ⟨[], rfl, rfl⟩
  | cons n t ih =>
    simp only [List.all_cons, Bool.and_eq_true] at h
    obtain ⟨hn, ht⟩ := h
    obtain ⟨jn, hjn, r, hr, hrs⟩ := remap_roundtrip n hn
    obtain ⟨rs, hmap, harr⟩ := ih ht
    refine ⟨r :: rs, ?_, ?_⟩
    · simp only [stringifyArr, hjn, Option.getD_some, mapE, hr, hmap]
    · simp only [stringifyArr, hrs, hjn, Option.getD_some, harr]

/-- Claim C2: for every well-formed document (every document the app can
hold: nodes are objects whose `data` object carries a normalized
`isCustom` and the re-bound callbacks, edges form an array),
exporting, then importing the exported JSON, then exporting again yields the same JSON
value: the same node ids, labels, descriptions, positions, isCustom
flags and edge endpoints, the only difference after import being the
re-bound runtime callbacks, which the serializer drops again. -/
theorem export_import_export (st : AppState) (h : wfState st = true) :
    ∃ ns es c, importJson (exportJson st) = Except.ok (ns, es, c) ∧
      exportJson ⟨ns, es, c⟩ = exportJson st := by
  rw [wfState, Bool.and_eq_true] at h
  obtain ⟨hn, he⟩ := h
  obtain ⟨l, hl⟩ : ∃ l, st.edges = RVal.rarr l := by
    cases hedges : st.edges
    case rarr xs => exact ⟨xs, rfl⟩
    all_goals (rw [hedges] at he; simp at he)
  obtain ⟨rs, hmap, harr⟩ := mapE_roundtrip st.nodes hn
  have hexp : exportJson st
      = RVal.robj [("nodes", RVal.rarr (stringifyArr st.nodes)),
                   ("edges", RVal.rarr (stringifyArr l))] := by
    rw [exportJson, hl]
    simp [stringifyFields, stringifyR]
  refine ⟨rs, RVal.rarr (stringifyArr l),
    jsRound ((foldMaxAux (stringifyArr st.nodes) (-1) + 1).toNat), ?_, ?_⟩
  · rw [hexp]
    simp [importJson, importBody, getFieldR, lookupA, hmap]
  · rw [exportJson, hexp]
    simp [stringifyFields, stringifyR, harr, stringifyArr_fix l]

/-- Concrete witness state for the round-trip theorem: one catalog node
with an attached edge, counter 1. -/
def sampleNode : RVal :=
  .robj [("id", .rstr "node_0"), ("type", .rstr "sideNode"),
    ("position", .robj [("x", .rnum 10), ("y", .rnum 20)]),
    ("data", .robj [("id", .rstr "node_0"), ("label", .rstr "S3"),
      ("description", .rstr "object store"),
      ("onDescriptionChange", .rfun .cbDescription), ("onDelete", .rfun .cbDelete),
      ("onLabelChange", .rfun .cbLabel), ("isCustom", .rbool false)])]

/-- Concrete witness edge. -/
def sampleEdge : RVal :=
  .robj [("id", .rstr "e1"), ("source", .rstr "node_0"), ("target", .rstr "node_0")]

/-- Concrete witness state. -/
def sampleState : AppState := ⟨[sampleNode], .rarr [sampleEdge], 1⟩

/-- Witness for C2: the round-trip theorem applied to `sampleState`. -/
theorem export_import_export_witness :
    wfState sampleState = true ∧
      ∃ ns es c, importJson (exportJson sampleState) = Except.ok (ns, es, c) ∧
        exportJson ⟨ns, es, c⟩ = exportJson sampleState :=
  ⟨by rfl, export_import_export sampleState (by rfl)⟩

/-! ## Counter-reconciliation lemmas -/

/-- Integers up to `2 ^ 53` are exactly representable in float64, so
`jsRound` fixes them. -/
theorem jsRound_id_of_le (n : Nat) (h : n ≤ 9007199254740992) : jsRound n = n := by
  rcases Nat.lt_or_ge n 9007199254740992 with hlt | hge
  · have hs : ulpExp 1100 n = 0 := by
      have hu : ulpExp 1100 n
          = if n < 9007199254740992 then 0 else ulpExp 1099 (n / 2) + 1 := rfl
      rw [hu, if_pos hlt]
    rw [jsRound]
    simp [hs]
  · have heq : n = 9007199254740992 := le_antisymm h hge
    subst heq
    rfl

theorem foldMaxAux_ge (xs : List RVal) : ∀ (a : Int), a ≤ foldMaxAux xs a := by
  induction xs with
  | nil => intro a; simp [foldMaxAux]
  | cons n t ih =>
    intro a
    rw [foldMaxAux]
    cases hs : suffixOf (idStrOf n) with
    | none => simpa using ih a
    | some k =>
      simp only
      exact le_trans (le_max_left a ((jsRound k : Int))) (ih _)

theorem foldMaxAux_ub (xs : List RVal) : ∀ (a : Int) (n : RVal), n ∈ xs →
    ∀ k, suffixOf (idStrOf n) = some k → k < 9007199254740992 →
      (k : Int) ≤ foldMaxAux xs a := by
  induction xs with
  | nil => intro a n hn; simp at hn
  | cons m t ih =>
    intro a n hn k hk hkL
    rw [foldMaxAux]
    rcases List.mem_cons.mp hn with hn | hn
    · subst hn
      rw [hk]
      simp only [jsRound_id_of_le k (le_of_lt hkL)]
      exact le_trans (le_max_right a (k : Int)) (foldMaxAux_ge t _)
    · cases hs : suffixOf (idStrOf m) <;> exact ih _ n hn k hk hkL

theorem foldMaxAux_att (xs : List RVal)
    (hsafe : ∀ n ∈ xs, ∀ k, suffixOf (idStrOf n) = some k → k < 9007199254740992) :
    ∀ (a : Int), foldMaxAux xs a = a ∨
      ∃ n ∈ xs, ∃ k : Nat, suffixOf (idStrOf n) = some k ∧ foldMaxAux xs a = (k : Int) := by
  induction xs with
  | nil => intro a; left; rfl
  | cons m t ih =>
    have hsafet : ∀ n ∈ t, ∀ k, suffixOf (idStrOf n) = some k → k < 9007199254740992 :=
      fun n hn => hsafe n (List.mem_cons_of_mem _ hn)
    intro a
    rw [foldMaxAux]
    cases hs : suffixOf (idStrOf m) with
    | none =>
      rcases ih hsafet a with h | ⟨n, hn, k, hk, he⟩
      · left; simpa using h
      · right; exact ⟨n, List.mem_cons_of_mem _ hn, k, hk, by simpa using he⟩
    | some k₀ =>
      have hr : jsRound k₀ = k₀ :=
        jsRound_id_of_le k₀ (le_of_lt (hsafe m (List.mem_cons_self _ _) k₀ hs))
      simp only [hr]
      rcases ih hsafet (max a (k₀ : Int)) with h | ⟨n, hn, k, hk, he⟩
      · rcases le_or_lt (k₀ : Int) a with hle | hlt
        · left; rw [h]; exact max_eq_left hle
        · right
          refine ⟨m, List.mem_cons_self _ _, k₀, hs, ?_⟩
          rw [h]
          exact max_eq_right (le_of_lt hlt)
      · right; exact ⟨n, List.mem_cons_of_mem _ hn, k, hk, he⟩

theorem foldMaxAux_none (xs : List RVal) : ∀ (a : Int),
    (∀ n ∈ xs, suffixOf (idStrOf n) = none) → foldMaxAux xs a = a := by
  induction xs with
  | nil => intro a _h; rfl
  | cons m t ih =>
    intro a h
    rw [foldMaxAux, h m (List.mem_cons_self _ _)]
    exact ih a (fun n hn => h n (List.mem_cons_of_mem _ hn))

/-- Successful imports expose the scanned node list and the counter
formula. -/
theorem importCounter_eq (j : RVal) (c : Nat) (h : importCounter j = some c) :
    ∃ xs, (getFieldR j "nodes").getD (.rarr []) = .rarr xs ∧
      c = jsRound ((foldMaxAux xs (-1) + 1).toNat) ∧ importedIds j = xs.map idStrOf := by
  have hnn : j ≠ RVal.rnull := by
    intro hj
    rw [hj] at h
    simp [importCounter, importJson] at h
  rw [importCounter, importJson_eq_body j hnn, importBody] at h
  cases hm : (getFieldR j "nodes").getD (.rarr []) with
  | rarr xs =>
    rw [hm] at h
    cases hmp : mapE xs with
    | error e => simp [hmp] at h
    | ok rs =>
      simp only [hmp] at h
      simp at h
      exact ⟨xs, rfl, h.symm, by rw [importedIds, hm]⟩
  | rnull => rw [hm] at h; simp at h
  | rbool b => rw [hm] at h; simp at h
  | rnum m => rw [hm] at h; simp at h
  | rstr s => rw [hm] at h; simp at h
  | robj fs => rw [hm] at h; simp at h
  | rfun cb => rw [hm] at h; simp at h

/-- All imported ids whose suffix matches the generated pattern stay in
the float64-exact integer range, below `2 ^ 53`: in this range `Number`
and the `maxIndex + 1` increment are exact. -/
def safeSuffixes (j : RVal) : Bool :=
  (importedIds j).all (fun s =>
    match suffixOf s with
    | some k => decide (k < 9007199254740992)
    | none => true)

/-- Amended claim C1: after a successful import whose matching suffixes
are all below `2 ^ 53` (the float64-exact range), the global counter is
one more than the largest integer suffix among imported ids matching the
generated pattern `node_(digits)` — every matching suffix is below the
counter, and `counter - 1` is attained when any id matches — and the
counter is `0` when no imported id matches, non-matching ids being
ignored; the next generated id is `node_` followed by the counter.
Beyond `2 ^ 53` the float64 conversion and increment round (see the
counterexample) and the original unconditional statement fails. -/
theorem import_counter_reconciliation (j : RVal) (c : Nat)
    (h : importCounter j = some c) (hsafe : safeSuffixes j = true) :
    (∀ s ∈ importedIds j, ∀ k, suffixOf s = some k → k < c) ∧
    (c ≠ 0 → ∃ s ∈ importedIds j, suffixOf s = some (c - 1)) ∧
    ((∀ s ∈ importedIds j, suffixOf s = none) → c = 0) ∧
    (getId c).1 = "node_" ++ toString c := by
  obtain ⟨xs, _hxs, hc, hids⟩ := importCounter_eq j c h
  have hsafe' : ∀ n ∈ xs, ∀ k, suffixOf (idStrOf n) = some k → k < 9007199254740992 := by
    intro n hn k hk
    have hmem : idStrOf n ∈ importedIds j := by
      rw [hids]
      exact List.mem_map_of_mem _ hn
    rw [safeSuffixes] at hsafe
    have hp := List.all_eq_true.mp hsafe _ hmem
    rw [hk] at hp
    exact of_decide_eq_true hp
  have hmain : (foldMaxAux xs (-1) = -1 ∧ c = 0) ∨
      (∃ k : Nat, ∃ n ∈ xs, suffixOf (idStrOf n) = some k ∧
        foldMaxAux xs (-1) = (k : Int) ∧ k < 9007199254740992 ∧ c = k + 1) := by
    rcases foldMaxAux_att xs hsafe' (-1) with hz | ⟨n, hn, k, hk, he⟩
    · left
      refine ⟨hz, ?_⟩
      rw [hc, hz]
      rfl
    · right
      have hkL := hsafe' n hn k hk
      refine ⟨k, n, hn, hk, he, hkL, ?_⟩
      rw [hc, he]
      have ht : ((k : Int) + 1).toNat = k + 1 := by omega
      rw [ht, jsRound_id_of_le (k + 1) (by omega)]
  refine ⟨?_, ?_, ?_, rfl⟩
  · intro s hs k' hk'
    rw [hids] at hs
    obtain ⟨n', hn', rfl⟩ := List.mem_map.mp hs
    have hub := foldMaxAux_ub xs (-1) n' hn' k' hk' (hsafe' n' hn' k' hk')
    rcases hmain with ⟨hz, hc0⟩ | ⟨k, n, hn, hk, he, hkL, hcv⟩
    · rw [hz] at hub
      omega
    · rw [he] at hub
      omega
  · intro hc0
    rcases hmain with ⟨hz, hc0'⟩ | ⟨k, n, hn, hk, he, hkL, hcv⟩
    · exact absurd hc0' hc0
    · refine ⟨idStrOf n, by rw [hids]; exact List.mem_map_of_mem _ hn, ?_⟩
      rw [hk]
      congr 1
      omega
  · intro hall
    rcases hmain with ⟨hz, hc0⟩ | ⟨k, n, hn, hk, he, hkL, hcv⟩
    · exact hc0
    · have hnone := hall (idStrOf n) (by rw [hids]; exact List.mem_map_of_mem _ hn)
      rw [hk] at hnone
      simp at hnone

/-- The scenario import file of the spec: node ids `node_2`, `node_7`
and `custom_x`. -/
def sampleImportFile : RVal :=
  .robj [("nodes", .rarr
    [.robj [("id", .rstr "node_2"), ("data", .robj [])],
     .robj [("id", .rstr "node_7"), ("data", .robj [])],
     .robj [("id", .rstr "custom_x"), ("data", .robj [])]])]

/-- Witness for the amended C1 theorem: importing ids `node_2`, `node_7`,
`custom_x` (all suffixes float64-exact) sets the counter to `8`, suffix
`7` is attained, and the next `CreateNode` id is `node_8`. -/
theorem import_counter_reconciliation_witness :
    importCounter sampleImportFile = some 8 ∧
      safeSuffixes sampleImportFile = true ∧
      (∃ s ∈ importedIds sampleImportFile, suffixOf s = some 7) ∧
      (getId 8).1 = "node_8" :=
  ⟨by rfl, by rfl,
   (import_counter_reconciliation sampleImportFile 8 (by rfl) (by rfl)).2.1 (by decide),
   by rfl⟩

/-- An import file whose single node id carries the suffix
`9007199254740993 = 2 ^ 53 + 1`, the first integer float64 cannot
represent. -/
def overflowImportFile : RVal :=
  .robj [("nodes", .rarr
    [.robj [("id", .rstr "node_9007199254740993"), ("data", .robj [])]])]

/-- Counterexample to C1 as stated: importing the id
`node_9007199254740993` makes `Number` round the suffix to
`9007199254740992 = 2 ^ 53`, and the float64 increment `maxIndex + 1`
ties back to even, so the program's counter is `9007199254740992` — not
`1 + 9007199254740993` as the claim requires, and not above the matching
suffix written in the file. -/
theorem import_counter_float_counterexample :
    importCounter overflowImportFile = some 9007199254740992 ∧
      importedIds overflowImportFile = ["node_9007199254740993"] ∧
      suffixOf "node_9007199254740993" = some 9007199254740993 ∧
      (9007199254740992 : Nat) ≠ 9007199254740993 + 1 ∧
      ¬ 9007199254740993 < 9007199254740992 :=
  ⟨by rfl, by rfl, by rfl, by decide, by decide⟩

/-! ## Import failure analysis -/

/-- Whether an exceptional computation succeeded. -/
def isOkE {α : Type} : Except Unit α → Bool
  | .ok _ => true
  | .error _ => false

/-- The nodes part of a parse result defeats the try-block: the `nodes`
field is present but not an array (on a non-array, `.map` is not a
function), or some node entry makes the remap throw (its `data` member
is missing or `null`). -/
def nodesPartBad (j : RVal) : Bool :=
  match (getFieldR j "nodes").getD (.rarr []) with
  | .rarr xs => !(isOkE (mapE xs))
  | _ => true

/-- When the invalid-file alert fires: parse failure, a `null` top level,
or a bad nodes part. -/
def importAlert (o : Option RVal) : Bool :=
  match o with
  | none => true
  | some .rnull => true
  | some j => nodesPartBad j

theorem importBody_alert (j : RVal) :
    (match importBody j with
     | Except.ok _ => false
     | Except.error _ => true) = nodesPartBad j := by
  rw [importBody, nodesPartBad]
  cases hm : (getFieldR j "nodes").getD (.rarr []) with
  | rarr xs =>
    cases hmp : mapE xs with
    | error e => simp [isOkE, hmp]
    | ok rs => simp [isOkE, hmp]
  | rnull => simp
  | rbool b => simp
  | rnum m => simp
  | rstr s => simp
  | robj fs => simp
  | rfun cb => simp

theorem importFile_snd (j : RVal) (st : AppState) :
    (importFile (some j) st).2 =
      (match importJson j with
       | Except.ok _ => false
       | Except.error _ => true) := by
  rw [importFile]
  cases importJson j with
  | ok t => obtain ⟨a, b, c⟩ := t; rfl
  | error e => rfl

/-- Amended claim C6: the user-visible invalid-file alert fires exactly
when JSON parsing fails, the parsed value is `null`, or the nodes part
cannot be traversed (a `nodes` field present but not an array — `null`
included — or a node entry whose `data` member is missing or `null`);
on such failure the current document is left untouched.  A top-level
object missing the `nodes` or `edges` key defaults the missing part to
the empty document (and a non-object, non-null top level also succeeds
with both parts empty rather than erroring). -/
theorem import_failure_characterization (o : Option RVal) (st : AppState) :
    ((importFile o st).2 = importAlert o) ∧
    ((importFile o st).2 = true → (importFile o st).1 = st) ∧
    (∀ fs, o = some (RVal.robj fs) → lookupA fs "nodes" = none →
      lookupA fs "edges" = none →
      importFile o st = (⟨[], RVal.rarr [], 0⟩, false)) := by
  refine ⟨?_, ?_, ?_⟩
  · cases o with
    | none => rfl
    | some j =>
      cases j
      case rnull => rfl
      all_goals (rw [importFile_snd, importJson_eq_body _ (by simp), importBody_alert]; rfl)
  · cases o with
    | none => intro _; rfl
    | some j =>
      rw [importFile]
      cases hr : importJson j with
      | ok t => obtain ⟨a, b, c⟩ := t; intro hcontra; simp at hcontra
      | error e => intro _; rfl
  · intro fs ho h₁ h₂
    subst ho
    rw [importFile, importJson_eq_body _ (by simp), importBody]
    simp [getFieldR, h₁, h₂, mapE, foldMaxAux]
    rfl

/-- Counterexample to C6 as stated: the byte sequence `42` parses to a
valid JSON value whose top-level shape is not an object, yet the import
does not fail — no alert — and it replaces the current document with the
empty one instead of leaving it untouched. -/
theorem import_nonobject_counterexample :
    importFile (some (RVal.rnum 42)) ⟨[sampleNode], RVal.rarr [sampleEdge], 5⟩
        = (⟨[], RVal.rarr [], 0⟩, false) ∧
      (match RVal.rnum 42 with
       | RVal.robj _ => true
       | _ => false) = false :=
  ⟨by rfl, by rfl⟩

/-- Witness for the amended C6 theorem: a parse failure alerts and leaves
the sample document untouched. -/
theorem import_failure_characterization_witness :
    (importFile none sampleState).2 = true ∧ (importFile none sampleState).1 = sampleState :=
  ⟨by rfl, (import_failure_characterization none sampleState).2.1 (by rfl)⟩

/-! ## Document-model operation theorems -/

/-- Claim C3: `DeleteNode` removes every node carrying the deleted id
(a no-op on the node list when absent), removes exactly the edges whose
`source` or `target` equals the id — afterwards no remaining edge
references the id — and retains every other edge unchanged and in
order. -/
theorem deleteNode_cascade (d : Diagram) (nodeId : String) :
    (∀ e ∈ (handleDeleteNode nodeId d).edges,
      fieldIsStr e "source" nodeId = false ∧ fieldIsStr e "target" nodeId = false) ∧
    (∀ e ∈ d.edges, fieldIsStr e "source" nodeId = false →
      fieldIsStr e "target" nodeId = false → e ∈ (handleDeleteNode nodeId d).edges) ∧
    ((handleDeleteNode nodeId d).edges.Sublist d.edges) ∧
    (∀ n ∈ (handleDeleteNode nodeId d).nodes, idIs n nodeId = false) ∧
    (∀ n ∈ d.nodes, idIs n nodeId = false → n ∈ (handleDeleteNode nodeId d).nodes) := by
  refine ⟨?_, ?_, ?_, ?_, ?_⟩
  · intro e he
    rw [handleDeleteNode] at he
    simp only [List.mem_filter, Bool.and_eq_true, Bool.not_eq_true'] at he
    exact ⟨he.2.1, he.2.2⟩
  · intro e he h₁ h₂
    rw [handleDeleteNode]
    simp only [List.mem_filter, Bool.and_eq_true, Bool.not_eq_true']
    exact ⟨he, h₁, h₂⟩
  · exact List.filter_sublist _
  · intro n hn
    rw [handleDeleteNode] at hn
    simp only [List.mem_filter, Bool.not_eq_true'] at hn
    exact hn.2
  · intro n hn h₁
    rw [handleDeleteNode]
    simp only [List.mem_filter, Bool.not_eq_true']
    exact ⟨hn, h₁⟩

/-- Spec scenario document for deletion: nodes `A`, `B`, `C` and edges
`A -> B`, `B -> C`. -/
def sampleDelDoc : Diagram :=
  ⟨[.robj [("id", .rstr "A")], .robj [("id", .rstr "B")], .robj [("id", .rstr "C")]],
   [.robj [("id", .rstr "e1"), ("source", .rstr "A"), ("target", .rstr "B")],
    .robj [("id", .rstr "e2"), ("source", .rstr "B"), ("target", .rstr "C")]]⟩

/-- Witness for C3: deleting `B` from the scenario document empties the
edge list and keeps exactly `A` and `C`; the theorem's retention clause
applied to node `A`. -/
theorem deleteNode_cascade_witness :
    handleDeleteNode "B" sampleDelDoc
        = ⟨[.robj [("id", .rstr "A")], .robj [("id", .rstr "C")]], []⟩ ∧
      RVal.robj [("id", RVal.rstr "A")] ∈ (handleDeleteNode "B" sampleDelDoc).nodes :=
  ⟨by rfl,
   (deleteNode_cascade sampleDelDoc "B").2.2.2.2 _ (List.mem_cons_self _ _) (by rfl)⟩

/-- Claim C4: a relabel event leaves the document unchanged when the
node is absent or its `isCustom` is not truthy (non-custom nodes render
a static label, so no relabel reaches the state updater), and on a
custom node it rewrites exactly the matching nodes' `data.label` to the
new label, leaving edges unchanged. -/
theorem relabel_custom_only (d : Diagram) (nodeId lbl : String) :
    (d.nodes.find? (fun n => idIs n nodeId) = none → relabelNode nodeId lbl d = d) ∧
    (∀ n, d.nodes.find? (fun n => idIs n nodeId) = some n →
      jsTruthy ((dataFieldOf n "isCustom").getD .rnull) = false →
      relabelNode nodeId lbl d = d) ∧
    (∀ n, d.nodes.find? (fun n => idIs n nodeId) = some n →
      jsTruthy ((dataFieldOf n "isCustom").getD .rnull) = true →
      (relabelNode nodeId lbl d).nodes = d.nodes.map (fun m =>
        if idIs m nodeId then updateDataField m "label" (.rstr lbl) else m) ∧
      (relabelNode nodeId lbl d).edges = d.edges) ∧
    (∀ m, idIs m nodeId = true →
      dataFieldOf (updateDataField m "label" (.rstr lbl)) "label" = some (.rstr lbl)) := by
  refine ⟨?_, ?_, ?_, ?_⟩
  · intro h
    rw [relabelNode, h]
  · intro n hf hc
    rw [relabelNode, hf]
    simp [hc]
  · intro n hf hc
    rw [relabelNode, hf]
    simp only [hc, if_true]
    exact ⟨rfl, trivial⟩
  · intro m _hm
    rw [updateDataField, dataFieldOf, getFieldR, lookupA_setF_self]
    simp only [Option.getD_some, getFieldR, lookupA_setF_self]

/-- Witness document for relabel: a custom node `node_1` and a
catalog-derived node `node_2`. -/
def sampleRelabelDoc : Diagram :=
  ⟨[.robj [("id", .rstr "node_1"), ("data", .robj [("label", .rstr "x"), ("isCustom", .rbool true)])],
    .robj [("id", .rstr "node_2"), ("data", .robj [("label", .rstr "S3"), ("isCustom", .rbool false)])]],
   []⟩

/-- Witness for C4: relabeling the non-custom `node_2` is the identity,
while relabeling the custom `node_1` rewrites its `data.label`. -/
theorem relabel_custom_only_witness :
    relabelNode "node_2" "evil" sampleRelabelDoc = sampleRelabelDoc ∧
      dataFieldOf (updateDataField
        (.robj [("id", .rstr "node_1"),
                ("data", .robj [("label", .rstr "x"), ("isCustom", .rbool true)])])
        "label" (.rstr "y")) "label" = some (.rstr "y") :=
  ⟨(relabel_custom_only sampleRelabelDoc "node_2" "evil").2.1 _ (by rfl) (by rfl),
   (relabel_custom_only sampleRelabelDoc "node_1" "y").2.2.2 _ (by rfl)⟩

/-- Claim C10: the description-change operation leaves the edges
untouched, keeps every non-matching node unchanged, and on a matching
node rewrites only `data.description`, preserving the node's `id`,
`type`, `position`, `data.label` and `data.isCustom`; a document with no
matching node is unchanged. -/
theorem redescribe_frame (d : Diagram) (nodeId desc : String) :
    ((onDescriptionChange nodeId desc d).edges = d.edges) ∧
    (∀ n ∈ d.nodes, idIs n nodeId = false →
      n ∈ (onDescriptionChange nodeId desc d).nodes) ∧
    (∀ n, idIs n nodeId = true →
      getFieldR (updateDataField n "description" (.rstr desc)) "id" = getFieldR n "id" ∧
      getFieldR (updateDataField n "description" (.rstr desc)) "type" = getFieldR n "type" ∧
      getFieldR (updateDataField n "description" (.rstr desc)) "position" = getFieldR n "position" ∧
      dataFieldOf (updateDataField n "description" (.rstr desc)) "label" = dataFieldOf n "label" ∧
      dataFieldOf (updateDataField n "description" (.rstr desc)) "isCustom" = dataFieldOf n "isCustom" ∧
      dataFieldOf (updateDataField n "description" (.rstr desc)) "description" = some (.rstr desc)) ∧
    (∀ n ∈ d.nodes, idIs n nodeId = true →
      updateDataField n "description" (.rstr desc) ∈ (onDescriptionChange nodeId desc d).nodes) ∧
    ((∀ n ∈ d.nodes, idIs n nodeId = false) → onDescriptionChange nodeId desc d = d) := by
  have houter : ∀ (n : RVal) (k : String), k ≠ "data" →
      getFieldR (updateDataField n "description" (.rstr desc)) k = getFieldR n k := by
    intro n k hk
    rw [updateDataField, getFieldR, lookupA_setF_ne _ _ _ _ hk, lookupA_spreadR]
  have hinner : ∀ (n : RVal) (k : String), k ≠ "description" →
      dataFieldOf (updateDataField n "description" (.rstr desc)) k = dataFieldOf n k := by
    intro n k hk
    rw [updateDataField, dataFieldOf, getFieldR, lookupA_setF_self]
    simp only [Option.getD_some, getFieldR, lookupA_setF_ne _ _ _ _ hk, lookupA_spreadR]
    rfl
  refine ⟨rfl, ?_, ?_, ?_, ?_⟩
  · intro n hn h₁
    rw [onDescriptionChange]
    simp only [List.mem_map]
    exact ⟨n, hn, by rw [h₁]; rfl⟩
  · intro n hn
    refine ⟨houter n "id" (by simp), houter n "type" (by simp),
      houter n "position" (by simp), hinner n "label" (by simp),
      hinner n "isCustom" (by simp), ?_⟩
    rw [updateDataField, dataFieldOf, getFieldR, lookupA_setF_self]
    simp only [Option.getD_some, getFieldR, lookupA_setF_self]
  · intro n hn h₁
    rw [onDescriptionChange]
    simp only [List.mem_map]
    exact ⟨n, hn, by rw [h₁]; rfl⟩
  · intro hall
    obtain ⟨ns, es⟩ := d
    rw [onDescriptionChange]
    simp only [Diagram.mk.injEq, and_true]
    calc ns.map (fun n => if idIs n nodeId then updateDataField n "description" (.rstr desc) else n)
        = ns.map id := List.map_congr_left (fun n hn => by rw [hall n hn]; rfl)
      _ = ns := List.map_id ns

/-- Witness for C10: redescribing `node_1` in the relabel sample keeps
the other node and rewrites only the description of the target. -/
theorem redescribe_frame_witness :
    (RVal.robj [("id", RVal.rstr "node_2"),
        ("data", RVal.robj [("label", RVal.rstr "S3"), ("isCustom", RVal.rbool false)])])
      ∈ (onDescriptionChange "node_1" "new text" sampleRelabelDoc).nodes ∧
    dataFieldOf (updateDataField
      (.robj [("id", .rstr "node_1"),
              ("data", .robj [("label", .rstr "x"), ("isCustom", .rbool true)])])
      "description" (.rstr "new text")) "label" = some (.rstr "x") :=
  ⟨(redescribe_frame sampleRelabelDoc "node_1" "new text").2.1 _
      (by simp [sampleRelabelDoc]) (by rfl),
   ((redescribe_frame sampleRelabelDoc "node_1" "new text").2.2.1 _ (by rfl)).2.2.2.1⟩

/-- Claim C5: Connect appends its edge only when both endpoint nodes
exist; when either endpoint id (in particular both) names no node the
operation is rejected and the document — including the edge list — is
unchanged. -/
theorem connect_requires_endpoints (d : Diagram) (s t : String) :
    ((d.nodes.any (fun n => idIs n s) = false ∨ d.nodes.any (fun n => idIs n t) = false) →
      connect s t d = d) ∧
    (d.nodes.any (fun n => idIs n s) = true → d.nodes.any (fun n => idIs n t) = true →
      (connect s t d).edges = d.edges ++ [connEdge s t] ∧ (connect s t d).nodes = d.nodes) := by
  constructor
  · intro h
    rw [connect]
    rcases h with h | h <;> simp [h]
  · intro hs ht
    rw [connect]
    simp [hs, ht]

/-- Witness for C5: connecting the nonexistent `X` and `Y` in the empty
document changes nothing; connecting the existing `A` and `C` of the
scenario document appends exactly the new edge. -/
theorem connect_requires_endpoints_witness :
    connect "X" "Y" ⟨[], []⟩ = ⟨[], []⟩ ∧
      (connect "A" "C" sampleDelDoc).edges = sampleDelDoc.edges ++ [connEdge "A" "C"] :=
  ⟨(connect_requires_endpoints ⟨[], []⟩ "X" "Y").1 (Or.inl (by rfl)),
   ((connect_requires_endpoints sampleDelDoc "A" "C").2 (by rfl) (by rfl)).1⟩

/-- Counterexample to C8 as stated: toggling a key absent from the
collapse map stores `true` (collapsed), not `false` — JavaScript
`undefined` is falsy, so `!c[key]` is `true` on an absent key. -/
theorem toggle_absent_counterexample :
    lookupA (toggle [] "k") "k" = some true ∧
      lookupA (toggle [] "k") "k" ≠ some false :=
  ⟨by rfl, by simp [toggle, setF, lookupA]⟩

/-- Amended claim C8: Toggle(pathKey) flips the boolean stored for that
key, where an absent key is treated as having the default value false
(expanded), so toggling an absent key yields true (collapsed); every
other key is unchanged. -/
theorem toggle_flips_default_false (c : List (String × Bool)) (key : String) :
    lookupA (toggle c key) key = some (!((lookupA c key).getD false)) ∧
    (lookupA c key = none → lookupA (toggle c key) key = some true) ∧
    (∀ k, k ≠ key → lookupA (toggle c key) k = lookupA c k) := by
  refine ⟨lookupA_setF_self c key _, ?_, ?_⟩
  · intro h
    rw [toggle, lookupA_setF_self, h]
    rfl
  · intro k hk
    exact lookupA_setF_ne c key k _ hk

/-- Witness for the amended C8 theorem: in the map with only `a`,
toggling the absent `b` stores `true` and leaves `a` untouched. -/
theorem toggle_flips_default_false_witness :
    lookupA (toggle [("a", true)] "b") "b" = some true ∧
      lookupA (toggle [("a", true)] "b") "a" = some true :=
  ⟨(toggle_flips_default_false [("a", true)] "b").2.1 (by rfl),
   by rw [(toggle_flips_default_false [("a", true)] "b").2.2 "a" (by decide)]; rfl⟩

/-- Claim C9: a drop whose drag payload does not parse as JSON returns
before `getId()` is called: the node list, the edge state and the global
identifier counter are all left exactly as they were, so no `node_` id
is consumed. -/
theorem drop_invalid_payload_noop (descs : List (String × String)) (pos : RVal)
    (st : AppState) :
    onDrop descs none pos st = st ∧
    (onDrop descs none pos st).nodes = st.nodes ∧
    (onDrop descs none pos st).edges = st.edges ∧
    (onDrop descs none pos st).counter = st.counter :=
  ⟨rfl, rfl, rfl, rfl⟩

/-! ## Catalog loader lemmas -/

theorem updateF_lookup_self {α : Type} (fs : List (String × α)) (k : String)
    (f : α → α) (d : α) :
    lookupA (updateF fs k f d) k = some (f ((lookupA fs k).getD d)) := by
  induction fs with
  | nil => simp [updateF, lookupA]
  | cons p t ih =>
    obtain ⟨k₁, w⟩ := p
    by_cases h₁ : k₁ = k
    · subst h₁
      simp [updateF, lookupA]
    · simp [updateF, h₁, lookupA, ih]

theorem updateF_lookup_ne {α : Type} (fs : List (String × α)) (k k' : String)
    (f : α → α) (d : α) (h : k' ≠ k) :
    lookupA (updateF fs k f d) k' = lookupA fs k' := by
  have h' : ¬ k = k' := fun hh => h hh.symm
  induction fs with
  | nil => simp [updateF, lookupA, h']
  | cons p t ih =>
    obtain ⟨k₁, w⟩ := p
    by_cases h₁ : k₁ = k
    · subst h₁
      simp [updateF, lookupA, h']
    · simp [updateF, h₁, lookupA, ih]

theorem addTool_extends (arr : List String) : ∀ ts, ∃ s, arr.foldl addTool ts = ts ++ s := by
  induction arr with
  | nil => intro ts; exact ⟨[], by simp⟩
  | cons a arr ih =>
    intro ts
    rw [List.foldl_cons, addTool]
    by_cases h : ts.contains a = true
    · rw [if_pos h]
      exact ih ts
    · rw [if_neg h]
      obtain ⟨s, hs⟩ := ih (ts ++ [a])
      exact ⟨[a] ++ s, by rw [hs, List.append_assoc]⟩

theorem addTool_nodup (arr : List String) : ∀ ts, ts.Nodup → (arr.foldl addTool ts).Nodup := by
  induction arr with
  | nil => intro ts h; exact h
  | cons a arr ih =>
    intro ts h
    rw [List.foldl_cons, addTool]
    by_cases hc : ts.contains a = true
    · rw [if_pos hc]
      exact ih ts h
    · rw [if_neg hc]
      have ha : a ∉ ts := by
        intro hmem
        rw [List.contains_eq_any_beq] at hc
        exact hc (List.any_eq_true.mpr ⟨a, hmem, by simp⟩)
      refine ih _ (List.Nodup.append h (List.nodup_singleton a) ?_)
      intro x hx hx'
      simp only [List.mem_singleton] at hx'
      subst hx'
      exact ha hx

theorem lookupTax_some_chain (tx : Taxonomy) (p c t : String) (l : List String)
    (h : lookupTax tx p c t = some l) :
    ∃ cats tys, lookupA tx p = some cats ∧ lookupA cats c = some tys ∧
      lookupA tys t = some l := by
  rw [lookupTax] at h
  cases hp : lookupA tx p with
  | none => rw [hp] at h; simp at h
  | some cats =>
    rw [hp] at h
    simp only [Option.some_bind] at h
    cases hc : lookupA cats c with
    | none => rw [hc] at h; simp at h
    | some tys =>
      rw [hc] at h
      simp only [Option.some_bind] at h
      exact ⟨cats, tys, rfl, hc, h⟩

/-- One platform step only extends the tool lists at the end. -/
theorem stepFn_extends (e : ToolRecord) (tx : Taxonomy) (p₀ : String)
    (p c t : String) (l : List String) (h : lookupTax tx p c t = some l) :
    ∃ s, lookupTax (stepFn e tx p₀) p c t = some (l ++ s) := by
  obtain ⟨cats, tys, hp, hc, ht⟩ := lookupTax_some_chain tx p c t l h
  rw [stepFn]
  by_cases harr : ((lookupA e.arrs p₀).getD []).isEmpty = true
  · rw [if_pos harr]
    exact ⟨[], by simpa using h⟩
  · rw [if_neg harr]
    by_cases hpp : p = p₀
    · subst hpp
      by_cases hcc : c = e.category
      · subst hcc
        by_cases htt : t = e.ttype
        · subst htt
          obtain ⟨s, hs⟩ := addTool_extends ((lookupA e.arrs p).getD []) l
          refine ⟨s, ?_⟩
          rw [lookupTax, updateF_lookup_self, hp]
          simp only [Option.getD_some, Option.some_bind]
          rw [updateF_lookup_self, hc]
          simp only [Option.getD_some, Option.some_bind]
          rw [updateF_lookup_self, ht]
          simp only [Option.getD_some]
          rw [hs]
        · refine ⟨[], ?_⟩
          rw [lookupTax, updateF_lookup_self, hp]
          simp only [Option.getD_some, Option.some_bind]
          rw [updateF_lookup_self, hc]
          simp only [Option.getD_some, Option.some_bind]
          rw [updateF_lookup_ne _ _ _ _ _ htt, ht, List.append_nil]
      · refine ⟨[], ?_⟩
        rw [lookupTax, updateF_lookup_self, hp]
        simp only [Option.getD_some, Option.some_bind]
        rw [updateF_lookup_ne _ _ _ _ _ hcc, hc]
        simp only [Option.some_bind]
        rw [ht, List.append_nil]
    · refine ⟨[], ?_⟩
      rw [lookupTax, updateF_lookup_ne _ _ _ _ _ hpp, hp]
      simp only [Option.some_bind]
      rw [hc]
      simp only [Option.some_bind]
      rw [ht, List.append_nil]

/-- Every tool list of the taxonomy is duplicate-free. -/
def taxWF (tx : Taxonomy) : Prop :=
  ∀ p c t l, lookupTax tx p c t = some l → l.Nodup

/-- One platform step preserves duplicate-freedom of all tool lists. -/
theorem stepFn_wf (e : ToolRecord) (tx : Taxonomy) (p₀ : String) (hw : taxWF tx) :
    taxWF (stepFn e tx p₀) := by
  intro p c t l h
  rw [stepFn] at h
  by_cases harr : ((lookupA e.arrs p₀).getD []).isEmpty = true
  · rw [if_pos harr] at h
    exact hw p c t l h
  · rw [if_neg harr] at h
    by_cases hpp : p = p₀
    · subst hpp
      rw [lookupTax, updateF_lookup_self] at h
      simp only [Option.some_bind] at h
      by_cases hcc : c = e.category
      · subst hcc
        rw [updateF_lookup_self] at h
        simp only [Option.some_bind] at h
        by_cases htt : t = e.ttype
        · subst htt
          rw [updateF_lookup_self] at h
          injection h with h
          rw [← h]
          apply addTool_nodup
          cases hptx : lookupA tx p with
          | none => simp [lookupA]
          | some cats₀ =>
            simp only [Option.getD_some]
            cases hold : lookupA cats₀ e.category with
            | none => simp [lookupA]
            | some tys₀ =>
              simp only [Option.getD_some]
              cases holdt : lookupA tys₀ e.ttype with
              | none => simp
              | some l₀ =>
                simp only [Option.getD_some]
                refine hw p e.category e.ttype l₀ ?_
                rw [lookupTax, hptx]
                simp only [Option.some_bind]
                rw [hold]
                simp only [Option.some_bind]
                exact holdt
        · rw [updateF_lookup_ne _ _ _ _ _ htt] at h
          cases hptx : lookupA tx p with
          | none => rw [hptx] at h; simp [lookupA] at h
          | some cats₀ =>
            rw [hptx] at h
            simp only [Option.getD_some] at h
            cases hold : lookupA cats₀ e.category with
            | none => rw [hold] at h; simp [lookupA] at h
            | some tys₀ =>
              rw [hold] at h
              simp only [Option.getD_some] at h
              refine hw p e.category t l ?_
              rw [lookupTax, hptx]
              simp only [Option.some_bind]
              rw [hold]
              simp only [Option.some_bind]
              exact h
      · rw [updateF_lookup_ne _ _ _ _ _ hcc] at h
        cases hptx : lookupA tx p with
        | none => rw [hptx] at h; simp [lookupA] at h
        | some cats₀ =>
          rw [hptx] at h
          simp only [Option.getD_some] at h
          refine hw p c t l ?_
          rw [lookupTax, hptx]
          simpa using h
    · rw [lookupTax, updateF_lookup_ne _ _ _ _ _ hpp] at h
      exact hw p c t l h

theorem foldl_stepFn_extends (e : ToolRecord) (ps : List String) :
    ∀ (tx : Taxonomy) (p c t : String) (l : List String),
      lookupTax tx p c t = some l →
      ∃ s, lookupTax (ps.foldl (stepFn e) tx) p c t = some (l ++ s) := by
  induction ps with
  | nil => intro tx p c t l h; exact ⟨[], by simpa using h⟩
  | cons q ps ih =>
    intro tx p c t l h
    obtain ⟨s₁, h₁⟩ := stepFn_extends e tx q p c t l h
    obtain ⟨s₂, h₂⟩ := ih (stepFn e tx q) p c t (l ++ s₁) h₁
    exact ⟨s₁ ++ s₂, by rw [List.foldl_cons, h₂, List.append_assoc]⟩

theorem foldl_stepFn_wf (e : ToolRecord) (ps : List String) :
    ∀ (tx : Taxonomy), taxWF tx → taxWF (ps.foldl (stepFn e) tx) := by
  induction ps with
  | nil => intro tx h; exact h
  | cons q ps ih =>
    intro tx h
    rw [List.foldl_cons]
    exact ih _ (stepFn_wf e tx q h)

theorem taxWF_init : taxWF initTaxonomy := by
  intro p c t l h
  exfalso
  have hmap : ∀ (ps : List String),
      lookupA (ps.map fun q => (q, ([] : CatMap))) p = none ∨
      lookupA (ps.map fun q => (q, ([] : CatMap))) p = some [] := by
    intro ps
    induction ps with
    | nil => left; rfl
    | cons q ps ihq =>
      by_cases hq : q = p
      · right; simp [lookupA, hq]
      · simpa [lookupA, hq] using ihq
  rw [initTaxonomy] at h
  rcases hmap platforms with hm | hm <;> rw [lookupTax, hm] at h <;> simp [lookupA] at h

theorem buildGrouped_wf (data : List ToolRecord) : taxWF (buildGrouped data) := by
  rw [buildGrouped]
  have : ∀ (ds : List ToolRecord) (tx : Taxonomy), taxWF tx →
      taxWF (ds.foldl insertRecord tx) := by
    intro ds
    induction ds with
    | nil => intro tx h; exact h
    | cons e ds ihd =>
      intro tx h
      rw [List.foldl_cons]
      exact ihd _ (foldl_stepFn_wf e platforms tx h)
  exact this data initTaxonomy taxWF_init

/-- Claim C7: the catalog loader deduplicates tool names per
platform/category/type with case-sensitive exact matching — every tool
list of the built taxonomy is duplicate-free — and appends strictly at
the end, so earlier-seen tools keep their first-seen positions when more
records arrive; the record `(Compute, Serverless, AWS: [Lambda, Lambda])`
yields exactly `AWS.Compute.Serverless = [Lambda]`. -/
theorem catalog_dedup_first_seen (data : List ToolRecord) :
    (∀ p c t l, lookupTax (buildGrouped data) p c t = some l → l.Nodup) ∧
    (∀ e p c t l, lookupTax (buildGrouped data) p c t = some l →
      ∃ s, lookupTax (buildGrouped (data ++ [e])) p c t = some (l ++ s)) ∧
    (lookupTax (buildGrouped [⟨"Compute", "Serverless", [("AWS", ["Lambda", "Lambda"])]⟩])
        "AWS" "Compute" "Serverless" = some ["Lambda"]) := by
  refine ⟨fun p c t l h => buildGrouped_wf data p c t l h, ?_, by rfl⟩
  intro e p c t l h
  have hb : buildGrouped (data ++ [e]) = insertRecord (buildGrouped data) e := by
    rw [buildGrouped, buildGrouped, List.foldl_append, List.foldl_cons, List.foldl_nil]
  rw [hb, insertRecord]
  exact foldl_stepFn_extends e platforms (buildGrouped data) p c t l h

/-- Witness for C7: the scenario lookup evaluates to `[Lambda]` and the
theorem's dedup clause yields its duplicate-freedom. -/
theorem catalog_dedup_first_seen_witness :
    lookupTax (buildGrouped [⟨"Compute", "Serverless", [("AWS", ["Lambda", "Lambda"])]⟩])
        "AWS" "Compute" "Serverless" = some ["Lambda"] ∧
      (["Lambda"] : List String).Nodup :=
  ⟨by rfl,
   (catalog_dedup_first_seen [⟨"Compute", "Serverless", [("AWS", ["Lambda", "Lambda"])]⟩]).1
     "AWS" "Compute" "Serverless" ["Lambda"] (by rfl)⟩

end EtlApp
